import Mathlib

/-!
Verification of the Chronicle semantic indexing and retrieval engine
(`chronicle/semantic.py`) against its specification.

The development shallowly embeds the semantic core: the chunker
(`SemanticMemory._chunk_text`), the content hasher (`_hash_content`), the
SQLite-backed vector store (`_init_db` schema plus `INSERT OR REPLACE`),
the indexer (`index_file`, `index_directory`) and the retriever (`search`).
Machine floats are modelled by exact rationals with an explicit `none` for
IEEE NaN; external capabilities (the sentence-transformers embedding model
and the hashlib digest) are pluggable function fields, as they are library
calls, not code of this repository.
-/

namespace Chronicle

/-! ### Numeric model (numpy calls in `search`) -/

/-- Embedding vectors (`np.float32` arrays) are modelled as lists of exact
rationals. -/
abbrev Vec := List ℚ

/-- Model of `np.dot`: the dot product of two vectors, pairwise products of
the common prefix summed. -/
def dot (q v : Vec) : ℚ := (List.zipWith (· * ·) q v).sum

/-- Squared Euclidean magnitude of a vector; `normSq v = 0` exactly when
every component of `v` is zero. -/
def normSq (v : Vec) : ℚ := dot v v

/-- Model of the square root used by `np.linalg.norm`. It is exact whenever
the radicand has a perfect-square numerator and denominator (which covers
every concrete vector used in this development, and in particular radicand
zero for the zero vector); elsewhere it returns a rational approximation,
which is irrelevant here because no theorem below depends on those values. -/
def ratSqrt (x : ℚ) : ℚ := (Nat.sqrt x.num.toNat : ℚ) / (Nat.sqrt x.den : ℚ)

/-- Model of IEEE float division as used in the cosine computation: a zero
divisor yields NaN (`none`); in `search` the divisor is a product of norms
and is zero only when one vector is zero, in which case the dividend (a dot
product with the zero vector) is zero as well, so the float result is 0/0,
which is NaN. -/
def npDiv (a b : ℚ) : Option ℚ := if b = 0 then none else some (a / b)

/-- Model of the cosine-similarity expression in `SemanticMemory.search`:
`np.dot(q, v) / (np.linalg.norm(q) * np.linalg.norm(v))`. -/
def npCosine (q v : Vec) : Option ℚ := npDiv (dot q v) (ratSqrt (normSq q) * ratSqrt (normSq v))

/-- Model of the float comparison `score >= min_score`: any comparison with
NaN (`none`) is false. -/
def npGe (s : Option ℚ) (m : ℚ) : Bool :=
  match s with
  | none => false
  | some x => decide (m ≤ x)

/-! ### Python string and range primitives -/

/-- Helper for `pySplit`: walks the character list, accumulating the current
word (in reverse) and emitting it when whitespace or the end is reached. -/
def pySplitAux : List Char → List Char → List String
  | [], acc => if acc.isEmpty then [] else [String.mk acc.reverse]
  | c :: cs, acc =>
    if c.isWhitespace then
      (if acc.isEmpty then pySplitAux cs [] else String.mk acc.reverse :: pySplitAux cs [])
    else pySplitAux cs (c :: acc)

/-- Model of Python `str.split()` with no arguments, as used by
`_chunk_text`: split on runs of whitespace, discarding empty strings, so a
whitespace-only or empty string yields `[]`. -/
def pySplit (s : String) : List String := pySplitAux s.data []

/-- Model of Python `str.strip()` with no arguments, as used by the
`chunk.strip()` emptiness test in `_chunk_text`: remove leading and
trailing whitespace. -/
def pyStrip (s : String) : String :=
  String.mk (((s.data.dropWhile Char.isWhitespace).reverse.dropWhile Char.isWhitespace).reverse)

/-- Model of Python `range(0, stop, step)` for `stop ≥ 0`, as used by the
window loop of `_chunk_text`. A zero step raises `ValueError` at the loop
head; a negative step yields no iterations because the stop value is never
below the start 0; a positive step yields `0, step, 2*step, …` below
`stop`. -/
def pyRange (stop : Nat) (step : Int) : Except String (List Nat) :=
  if step = 0 then .error "range() arg 3 must not be zero"
  else if step < 0 then .ok []
  else .ok ((List.range ((stop + step.toNat - 1) / step.toNat)).map (fun k => k * step.toNat))

/-- Model of `SemanticMemory._chunk_text(text, chunk_size, overlap)`: split
`text` into words, slice `words[i:i+chunk_size]` for each `i` produced by
`range(0, len(words), chunk_size - overlap)`, join each slice with single
spaces, keep slices that are nonempty after stripping, and fall back to
`[text]` when no chunk survives. The Python defaults are
`chunk_size = 500`, `overlap = 50`; `index_file` always uses them. -/
def chunkText (text : String) (chunk_size overlap : Nat) : Except String (List String) :=
  let words := pySplit text
  match pyRange words.length ((chunk_size : Int) - (overlap : Int)) with
  | .error e => .error e
  | .ok idxs =>
    let chunks := (idxs.map (fun i => String.intercalate " " ((words.drop i).take chunk_size))).filter
      (fun c => pyStrip c != "")
    .ok (if chunks.isEmpty then [text] else chunks)

/-! ### Spec-side window descriptions of the chunker -/

/-- Helper for `claimChunk`, fuelled so that it is structurally recursive;
the fuel `len words` is always sufficient because each step with a positive
stride drops at least one word. -/
def claimWindowsGo (w s : Nat) : Nat → List String → List String
  | 0, _ => []
  | fuel + 1, words =>
    if words.length < w then (if words.isEmpty then [] else [String.intercalate " " words])
    else String.intercalate " " (words.take w) :: claimWindowsGo w s fuel (words.drop s)

/-- Modelled from the spec: the window algorithm exactly as the chunker
claim words it — emit successive windows of `w` words whose starts advance
by `w - o`, *until fewer than `w` words remain*, at which point exactly one
final (possibly shorter) trailing window is emitted if non-empty, with the
whole-text fallback when no window survives. This is the comparison point
for the chunker claim; the source model is `chunkText`. -/
def claimChunk (text : String) (w o : Nat) : List String :=
  let words := pySplit text
  let cs := claimWindowsGo w (w - o) words.length words
  if cs.isEmpty then [text] else cs

/-- Window sequence actually produced by the source loop for a positive
stride `s`: a window of up to `w` words is emitted at *every* start
position that lies inside the word list, so several trailing windows
shorter than `w` may appear. A zero stride yields no windows (that case is
an error in `chunkText` and never reaches this function). -/
def windowsAll (w s : Nat) (words : List String) : List String :=
  if s = 0 then []
  else if h : words.isEmpty then []
  else String.intercalate " " (words.take w) :: windowsAll w s (words.drop s)
termination_by words.length
decreasing_by
  simp only [List.length_drop]
  cases words with
  | nil => simp at h
  | cons a l => simp; omega

/-! ### Data model: the `chunks` table and the `SemanticMemory` object -/

/-- Row of the `chunks` table created by `SemanticMemory._init_db`:
`id INTEGER PRIMARY KEY` (a SQLite rowid alias, assigned at insert),
`file_path`, `chunk_index`, `content`, `content_hash TEXT UNIQUE`,
`embedding BLOB` (NULL when no model is configured), `created_at`, and
`metadata` (a JSON object holding the source path and chunk index,
modelled as the pair itself). -/
structure Row where
  id : Nat
  file_path : String
  chunk_index : Nat
  content : String
  content_hash : String
  embedding : Option Vec
  created_at : String
  metadata : String × Nat
deriving DecidableEq, Repr

/-- Result of `Path.read_text()` on a path: the file may be missing
(`path.exists()` is false), unreadable as text (`read_text` raises
`UnicodeDecodeError`), or readable with the given decoded content. -/
inductive FileContent where
  | missing
  | undecodable
  | text (s : String)
deriving DecidableEq, Repr

/-- Filesystem abstraction: what reading each path yields. -/
abbrev FS := String → FileContent

/-- State of a `SemanticMemory` object. `hashFn` models the external
`hashlib.sha256(...).hexdigest()[:16]` digest used by `_hash_content`
(a deterministic pure function per the spec); `model` models the optional
sentence-transformers encoder (`None` when the library is unavailable);
`rows` is the `chunks` table in rowid order, which is the order SQLite
returns for the unordered `SELECT`s in this module. -/
structure SemanticMemory where
  hashFn : String → String
  model : Option (String → Vec)
  rows : List Row

/-- Model of `SemanticMemory._hash_content`: the deterministic content
fingerprint, delegated to the external digest. -/
def hashContent (mem : SemanticMemory) (content : String) : String := mem.hashFn content

/-- Model of the `INSERT OR REPLACE INTO chunks … VALUES (?, …)` statement
in `index_file` against the schema of `_init_db`. SQLite `REPLACE`
resolution first deletes every row conflicting on the `UNIQUE content_hash`
column, then inserts a fresh row; the `id` column is not supplied, so the
new rowid is one larger than the largest rowid still in use (1 for an empty
table), placing the new row last in rowid order. -/
def insertOrReplace (rows : List Row) (file_path : String) (chunk_index : Nat)
    (content content_hash : String) (embedding : Option Vec)
    (created_at : String) (metadata : String × Nat) : List Row :=
  let kept := rows.filter (fun row => row.content_hash != content_hash)
  let newId := (kept.map (fun row => row.id)).foldr max 0 + 1
  kept ++ [⟨newId, file_path, chunk_index, content, content_hash, embedding, created_at, metadata⟩]

/-- Model of the chunk loop of `index_file`: for each chunk (with its
enumeration index `i`), compute the fingerprint, skip it when `force` is
false and a row with that fingerprint exists (`SELECT id FROM chunks WHERE
content_hash = ?`), otherwise encode it when a model is configured and
insert-or-replace the row, counting the write. -/
def indexChunks (mem : SemanticMemory) (path now : String) (force : Bool)
    (i : Nat) (chunks : List String) (indexed : Nat) : Nat × SemanticMemory :=
  match chunks with
  | [] => (indexed, mem)
  | chunk :: rest =>
    let content_hash := hashContent mem chunk
    let skip := !force && mem.rows.any (fun row => row.content_hash == content_hash)
    if skip then
      indexChunks mem path now force (i + 1) rest indexed
    else
      let embedding := mem.model.map (fun enc => enc chunk)
      let mem' : SemanticMemory :=
        ⟨mem.hashFn, mem.model,
          insertOrReplace mem.rows path i chunk content_hash embedding now (path, i)⟩
      indexChunks mem' path now force (i + 1) rest (indexed + 1)

/-- Model of `SemanticMemory.index_file(file_path, force)`: a missing path
returns 0 with no write; `read_text` may raise `UnicodeDecodeError`, which
propagates (there is no handler in this module); otherwise the content is
chunked with the default window parameters 500/50 and the chunk loop runs.
`now` is the `datetime.now().isoformat()` timestamp of the call. -/
def index_file (fs : FS) (mem : SemanticMemory) (file_path : String)
    (force : Bool) (now : String) : Except String (Nat × SemanticMemory) :=
  match fs file_path with
  | .missing => .ok (0, mem)
  | .undecodable => .error "UnicodeDecodeError"
  | .text content =>
    match chunkText content 500 50 with
    | .error e => .error e
    | .ok chunks => .ok (indexChunks mem file_path now force 0 chunks 0)

/-- Model of `SemanticMemory.index_directory(dir_path, pattern)`: the
`rglob` enumeration is supplied as the list `files` (in walk order); each
file is indexed with `force = False` and the returned counts are summed.
The loop has no exception handler, so an error from `index_file` (a
`UnicodeDecodeError` from `read_text`) propagates and aborts the walk; the
error carries the store state at the moment of the abort, since every
completed `index_file` call has already committed. The per-file progress
print is irrelevant to the store and the return value and is omitted. -/
def index_directory (fs : FS) (mem : SemanticMemory) (files : List String)
    (now : String) : Except (String × SemanticMemory) (Nat × SemanticMemory) :=
  match files with
  | [] => .ok (0, mem)
  | f :: rest =>
    match index_file fs mem f false now with
    | .error e => .error (e, mem)
    | .ok (count, mem') =>
      match index_directory fs mem' rest now with
      | .error em => .error em
      | .ok (total, mem'') => .ok (count + total, mem'')

/-! ### Retrieval -/

/-- Comparison used to model `results.sort(key=lambda x: x[2],
reverse=True)`: element `a` may precede element `b` when `a`'s score is at
least `b`'s. CPython's sort is stable and `reverse=True` preserves
stability, so the sort is modelled by the stable `List.mergeSort` with this
comparison. -/
def scoreGe (a b : String × String × ℚ) : Bool := decide (b.2.2 ≤ a.2.2)

/-- Model of the scoring loop of `search` over the selected rows: for each
row, skip it when the embedding blob is empty (`if embedding_blob:` is
false both for NULL and for a zero-length blob), compute the cosine score
against the query vector, and append `(file_path, content, score)` when
`score >= min_score` — a NaN score fails that comparison. -/
def searchScan (query_embedding : Vec) (min_score : ℚ) (rows : List Row) :
    List (String × String × ℚ) :=
  rows.filterMap (fun row =>
    match row.embedding with
    | none => none
    | some v =>
      if v.isEmpty then none
      else
        match npCosine query_embedding v with
        | none => none
        | some score => if min_score ≤ score then some (row.file_path, row.content, score) else none)

/-- Model of `SemanticMemory.search(query, limit, min_score)`. With no
model configured it prints an error and returns the empty list; otherwise
it embeds the query, reads every row with a non-NULL embedding (in rowid
order), scores them, sorts the qualifying triples by score descending with
Python's stable sort, and truncates to `limit`. The first component is the
list of printed messages; the second is the Python return value. -/
def search (mem : SemanticMemory) (query : String) (limit : Nat) (min_score : ℚ) :
    List String × List (String × String × ℚ) :=
  match mem.model with
  | none => (["Error: Embedding model not available"], [])
  | some enc =>
    let query_embedding := enc query
    let rows := mem.rows.filter (fun row => row.embedding.isSome)
    let results := searchScan query_embedding min_score rows
    ([], (results.mergeSort scoreGe).take limit)

/-! ### Spec-side description of retrieval (§4.6 of the spec) -/

/-- Stable descending insertion of a scored triple: `a` is placed before
the first element whose score is not above `a`'s — equal scores keep the
earlier element first. -/
def rankInsert (a : String × String × ℚ) : List (String × String × ℚ) → List (String × String × ℚ)
  | [] => [a]
  | b :: l => if scoreGe a b then a :: b :: l else b :: rankInsert a l

/-- Stable descending insertion sort, the spec's words for the ranking
step: sort descending by score, ties broken stably by insertion order. -/
def rankSort : List (String × String × ℚ) → List (String × String × ℚ)
  | [] => []
  | a :: l => rankInsert a (rankSort l)

/-- Modelled from the spec: `search` per the retriever contract — keep
exactly the embedded chunks whose similarity score is at least `min_score`,
in insertion order; sort them descending by score with stable ties; take
the first `top_k`. -/
def searchRanked (mem : SemanticMemory) (query : String) (top_k : Nat) (min_score : ℚ) :
    List (String × String × ℚ) :=
  match mem.model with
  | none => []
  | some enc =>
    let qualifying := mem.rows.filterMap (fun row =>
      match row.embedding with
      | none => none
      | some v =>
        match npCosine (enc query) v with
        | none => none
        | some score =>
          if min_score ≤ score then some (row.file_path, row.content, score) else none)
    (rankSort qualifying).take top_k

/-! ### Reachable store states -/

/-- Store states reachable through the public indexing interface: a fresh
database (any hasher and any optional model) is reachable, and so is the
result of any successful `index_file` call on a reachable state.
`index_directory` is a sequence of `index_file` calls, each committing on
completion, so every state it produces (including the state carried by an
aborted walk) is of this shape; `search` and `stats` do not write. -/
inductive Reachable : SemanticMemory → Prop where
  | init (hashFn : String → String) (model : Option (String → Vec)) :
      Reachable ⟨hashFn, model, []⟩
  | step {mem mem' : SemanticMemory} {fs : FS} {path now : String} {force : Bool} {n : Nat} :
      Reachable mem → index_file fs mem path force now = .ok (n, mem') → Reachable mem'

/-! ### Concrete instances used in the claim theorems

In all of them the external digest is instantiated with the identity
function (a deterministic stand-in for the hashlib call) and the external
encoder, when present, with an explicitly given constant embedding. -/

/-- Filesystem with two distinct files holding one identical paragraph. -/
def dedupFS : FS := fun p =>
  if p = "a.md" then .text "shared paragraph"
  else if p = "b.md" then .text "shared paragraph"
  else .missing

/-- Fresh store with no embedding model. -/
def dedupMem0 : SemanticMemory := ⟨fun s => s, none, []⟩

/-- Store after indexing `a.md` from `dedupMem0`: one row, rowid 1. -/
def dedupMem1 : SemanticMemory :=
  ⟨fun s => s, none,
    [⟨1, "a.md", 0, "shared paragraph", "shared paragraph", none, "t1", ("a.md", 0)⟩]⟩

/-- Store with three embedded chunks whose cosine scores against the
constant query embedding `[1, 0, 0, 0]` are 9/10, 1/2 and 1/5 (all three
stored vectors have magnitude 10). -/
def rankedMem : SemanticMemory :=
  ⟨fun s => s, some (fun _ => [1, 0, 0, 0]),
    [⟨1, "f1.md", 0, "c1", "c1", some [9, 3, 3, 1], "t1", ("f1.md", 0)⟩,
     ⟨2, "f2.md", 0, "c2", "c2", some [5, 5, 5, 5], "t2", ("f2.md", 0)⟩,
     ⟨3, "f3.md", 0, "c3", "c3", some [2, 4, 4, 8], "t3", ("f3.md", 0)⟩]⟩

/-- Store with no embedding model but with an indexed chunk. -/
def degradedMem : SemanticMemory :=
  ⟨fun s => s, none, [⟨1, "f.md", 0, "hello", "hello", none, "t1", ("f.md", 0)⟩]⟩

/-- Store with an embedding model and nothing indexed: a successful search
over it finds zero matches. -/
def emptyModelMem : SemanticMemory := ⟨fun s => s, some (fun _ => [1]), []⟩

/-- Filesystem for the directory-walk claim: an undecodable file followed
by a readable one. -/
def walkFS : FS := fun p =>
  if p = "bad.md" then .undecodable
  else if p = "good.md" then .text "hello world"
  else .missing

/-- Store holding one chunk whose stored vector is the zero vector, with a
model whose query embedding is non-zero. -/
def zeroVecMem : SemanticMemory :=
  ⟨fun s => s, some (fun _ => [1, 0]), [⟨1, "z.md", 0, "zc", "zc", some [0, 0], "t1", ("z.md", 0)⟩]⟩

/-- Store with two rows (rowids 1 and 2) for the forced re-index claim. -/
def forceMem : SemanticMemory :=
  ⟨fun s => s, none,
    [⟨1, "f1.md", 0, "alpha", "alpha", none, "t1", ("f1.md", 0)⟩,
     ⟨2, "f2.md", 0, "beta", "beta", none, "t2", ("f2.md", 0)⟩]⟩

/-- Filesystem backing `forceMem`'s first file. -/
def forceFS : FS := fun p =>
  if p = "f1.md" then .text "alpha" else .missing

/-- Filesystem holding one file whose content is whitespace only. -/
def wsFS : FS := fun p =>
  if p = "ws.md" then .text "   " else .missing

/-- Test used to express the zero-magnitude claim: a row whose stored
vector exists and has zero squared magnitude (equivalently, is the zero
vector). -/
def isZeroEmbedding (row : Row) : Bool :=
  match row.embedding with
  | none => false
  | some v => normSq v == 0


/-! ### Chunker lemmas -/

/-- Ceiling-division step: with a positive stride, the number of window
starts for a nonempty word list is one more than for the list with the
first stride dropped. -/
theorem ceilDiv_succ (n s : Nat) (hn : 1 ≤ n) (hs : 1 ≤ s) :
    (n + s - 1) / s = ((n - s) + s - 1) / s + 1 := by
  rcases le_or_lt n s with h | h
  · have h1 : n - s = 0 := by omega
    have hL : (n + s - 1) / s = 1 := by
      apply Nat.div_eq_of_lt_le <;> omega
    have hR : (0 + s - 1) / s = 0 := Nat.div_eq_of_lt (by omega)
    rw [h1, hL, hR]
  · rw [show (n - s) + s - 1 = n - 1 by omega, show n + s - 1 = (n - 1) + s by omega,
      Nat.add_div_right _ (by omega)]

/-- The window loop of the source — a window at every start produced by
`range(0, len(words), s)` — equals the recursive drop-by-stride
description `windowsAll`. -/
theorem range_map_windows (w s : Nat) (hs : 0 < s) (words : List String) :
    (List.range ((words.length + s - 1) / s)).map
      (fun k => String.intercalate " " ((words.drop (k * s)).take w)) = windowsAll w s words := by
  rw [windowsAll, if_neg (by omega : ¬s = 0)]
  by_cases hw : words.isEmpty
  · rw [dif_pos hw]
    have hnil : words = [] := by cases words <;> simp_all
    subst hnil
    simp [Nat.div_eq_of_lt (show s - 1 < s by omega)]
  · rw [dif_neg hw]
    have h1 : 1 ≤ words.length := by cases words <;> simp_all
    have hc : (words.length + s - 1) / s = ((words.drop s).length + s - 1) / s + 1 := by
      rw [List.length_drop]
      exact ceilDiv_succ words.length s h1 hs
    rw [hc, List.range_succ_eq_map, List.map_cons, List.map_map]
    congr 1
    · simp
    · rw [← range_map_windows w s hs (words.drop s)]
      apply List.map_congr_left
      intro k _
      simp only [Function.comp_apply, List.drop_drop]
      rw [show k.succ * s = s + k * s by rw [Nat.succ_mul, Nat.add_comm]]
termination_by words.length
decreasing_by
  have : words ≠ [] := by cases words <;> simp_all
  cases words with
  | nil => simp_all
  | cons a l => simp [List.length_drop]; omega

/-- C6, corrected. For every `overlap < window_size` the chunker splits on
whitespace and emits the whitespace-join of `words[i : i + window_size]`
for *every* start `i` that advances by `window_size - overlap` and still
lies inside the word list (`windowsAll`), filtered to windows that are
nonempty after stripping, with the whole-text fallback when none survive.
In particular several trailing windows shorter than `window_size` may be
emitted — not exactly one, as the claim states; `claim6_counterexample`
exhibits the difference. -/
theorem claim6_chunk_windows (text : String) (w o : Nat) (h : o < w) :
    chunkText text w o =
      .ok (let cs := (windowsAll w (w - o) (pySplit text)).filter (fun c => pyStrip c != "");
        if cs.isEmpty then [text] else cs) := by
  have hs : 0 < w - o := by omega
  have hrange : pyRange (pySplit text).length ((w : Int) - (o : Int)) =
      .ok ((List.range (((pySplit text).length + (w - o) - 1) / (w - o))).map
        (fun k => k * (w - o))) := by
    simp only [pyRange]
    rw [if_neg (by omega : ¬((w : Int) - (o : Int)) = 0),
      if_neg (by omega : ¬((w : Int) - (o : Int)) < 0),
      show ((w : Int) - (o : Int)).toNat = w - o by omega]
  simp only [chunkText, hrange, List.map_map]
  have := range_map_windows w (w - o) hs (pySplit text)
  rw [show ((fun i => String.intercalate " " (((pySplit text).drop i).take w)) ∘ fun k => k * (w - o))
      = fun k => String.intercalate " " (((pySplit text).drop (k * (w - o))).take w) from rfl, this]

/-- C6 counterexample: with four words, `window_size = 3` and
`overlap = 2`, the source emits windows at starts 0, 1, 2 and 3 — two
trailing windows (`"c d"` and `"d"`) shorter than the window size — while
the claimed algorithm (`claimChunk`, exactly one trailing window) stops
after `"c d"`. -/
theorem claim6_counterexample :
    chunkText "a b c d" 3 2 = .ok ["a b c", "b c d", "c d", "d"] ∧
    claimChunk "a b c d" 3 2 = ["a b c", "b c d", "c d"] := ⟨rfl, rfl⟩

/-- C6 witness: the corrected window description evaluated on a concrete
five-word text. -/
theorem claim6_witness :
    chunkText "a b c d e" 3 2 =
      .ok (let cs := (windowsAll 3 1 (pySplit "a b c d e")).filter (fun c => pyStrip c != "");
        if cs.isEmpty then ["a b c d e"] else cs) :=
  claim6_chunk_windows "a b c d e" 3 2 (by decide)

/-- C7, corrected. Only the boundary case `overlap = window_size` fails
fast: the zero stride raises `ValueError: range() arg 3 must not be zero`
at the loop head. For `overlap > window_size` the stride is negative, the
`range` is empty, and the chunker silently returns the whole-text fallback
window instead of signalling a configuration error; `claim7_counterexample`
exhibits that silent degenerate result. -/
theorem claim7_chunk_config_error (text : String) (chunk_size overlap : Nat) :
    (overlap = chunk_size →
      chunkText text chunk_size overlap = .error "range() arg 3 must not be zero") ∧
    (chunk_size < overlap → chunkText text chunk_size overlap = .ok [text]) := by
  constructor
  · intro h
    simp only [chunkText, pyRange]
    rw [if_pos (by omega : ((chunk_size : Int) - (overlap : Int)) = 0)]
  · intro h
    simp only [chunkText, pyRange]
    rw [if_neg (by omega : ¬((chunk_size : Int) - (overlap : Int)) = 0),
      if_pos (by omega : ((chunk_size : Int) - (overlap : Int)) < 0)]
    simp

/-- C7 counterexample: `overlap = 3 > 2 = window_size` does not raise — it
silently returns the degenerate single whole-text window. -/
theorem claim7_counterexample : chunkText "a b c" 2 3 = .ok ["a b c"] := rfl

/-- C7 witness: both corrected behaviours at concrete inputs — the zero
stride raising, and the negative stride silently falling back. -/
theorem claim7_witness :
    chunkText "x y" 3 3 = .error "range() arg 3 must not be zero" ∧
    chunkText "x y" 2 5 = .ok ["x y"] :=
  ⟨(claim7_chunk_config_error "x y" 3 3).1 rfl,
   (claim7_chunk_config_error "x y" 2 5).2 (by decide)⟩

/-! ### Store lemmas -/

/-- The chunk loop never changes the hasher or the model of the memory
object; only the rows change. -/
theorem indexChunks_fields (chunks : List String) :
    ∀ (mem : SemanticMemory) (path now : String) (force : Bool) (i n : Nat),
      (indexChunks mem path now force i chunks n).2.hashFn = mem.hashFn ∧
      (indexChunks mem path now force i chunks n).2.model = mem.model := by
  induction chunks with
  | nil => intro mem path now force i n; exact ⟨rfl, rfl⟩
  | cons c rest ih =>
    intro mem path now force i n
    simp only [indexChunks]
    split
    · exact ih mem path now force (i + 1) n
    · exact ih _ path now force (i + 1) (n + 1)

/-- Inserting-or-replacing preserves the presence of any fingerprint: rows
with a different fingerprint survive the delete, and the replaced
fingerprint reappears on the fresh row. -/
theorem insertOrReplace_keeps_hash (rows : List Row) (fp : String) (ci : Nat)
    (c ch : String) (emb : Option Vec) (now : String) (meta : String × Nat) (h : String)
    (hp : rows.any (fun row => row.content_hash == h) = true) :
    (insertOrReplace rows fp ci c ch emb now meta).any (fun row => row.content_hash == h) = true := by
  simp only [insertOrReplace, List.any_append, List.any_eq_true, Bool.or_eq_true]
  by_cases hch : h = ch
  · subst hch
    right
    simp
  · left
    simp only [List.any_eq_true] at hp
    obtain ⟨r, hr, hrh⟩ := hp
    refine ⟨r, List.mem_filter.mpr ⟨hr, ?_⟩, hrh⟩
    simp only [beq_iff_eq] at hrh
    simp [bne_iff_ne, hrh, hch]

/-- The fresh row's fingerprint is present after an insert-or-replace. -/
theorem insertOrReplace_has_new_hash (rows : List Row) (fp : String) (ci : Nat)
    (c ch : String) (emb : Option Vec) (now : String) (meta : String × Nat) :
    (insertOrReplace rows fp ci c ch emb now meta).any (fun row => row.content_hash == ch) = true := by
  simp [insertOrReplace]

/-- Fingerprint presence is monotone along the chunk loop. -/
theorem indexChunks_hash_mono (chunks : List String) :
    ∀ (mem : SemanticMemory) (path now : String) (force : Bool) (i n : Nat) (h : String),
      mem.rows.any (fun row => row.content_hash == h) = true →
      (indexChunks mem path now force i chunks n).2.rows.any
        (fun row => row.content_hash == h) = true := by
  induction chunks with
  | nil => intro mem path now force i n h hp; exact hp
  | cons c rest ih =>
    intro mem path now force i n h hp
    simp only [indexChunks]
    split
    · exact ih mem path now force (i + 1) n h hp
    · exact ih _ path now force (i + 1) (n + 1) h (insertOrReplace_keeps_hash _ _ _ _ _ _ _ _ _ hp)

/-- After the chunk loop, the fingerprint of every processed chunk is
present in the store. -/
theorem indexChunks_hash_present (chunks : List String) :
    ∀ (mem : SemanticMemory) (path now : String) (force : Bool) (i n : Nat) (c : String),
      c ∈ chunks →
      (indexChunks mem path now force i chunks n).2.rows.any
        (fun row => row.content_hash == mem.hashFn c) = true := by
  induction chunks with
  | nil => intro mem path now force i n c hc; cases hc
  | cons a rest ih =>
    intro mem path now force i n c hc
    simp only [indexChunks]
    split
    · rename_i hskip
      rcases List.mem_cons.mp hc with hca | hcr
      · subst hca
        have hp : mem.rows.any (fun row => row.content_hash == mem.hashFn c) = true := by
          have := hskip
          simp only [Bool.and_eq_true, Bool.not_eq_true'] at this
          exact this.2
        exact indexChunks_hash_mono rest mem path now force (i + 1) n _ hp
      · exact ih mem path now force (i + 1) n c hcr
    · rcases List.mem_cons.mp hc with hca | hcr
      · subst hca
        exact indexChunks_hash_mono rest _ path now force (i + 1) (n + 1) _
          (insertOrReplace_has_new_hash _ _ _ _ _ _ _ _)
      · exact ih _ path now force (i + 1) (n + 1) c hcr

/-- With `force` false and every chunk's fingerprint already present, the
chunk loop writes nothing and leaves the store untouched. -/
theorem indexChunks_all_present (chunks : List String) :
    ∀ (mem : SemanticMemory) (path now : String) (i n : Nat),
      (∀ c ∈ chunks, mem.rows.any (fun row => row.content_hash == mem.hashFn c) = true) →
      indexChunks mem path now false i chunks n = (n, mem) := by
  induction chunks with
  | nil => intro mem path now i n _; rfl
  | cons a rest ih =>
    intro mem path now i n hall
    simp only [indexChunks]
    rw [if_pos]
    · exact ih mem path now (i + 1) n (fun c hc => hall c (List.mem_cons_of_mem a hc))
    · simp only [Bool.not_false, Bool.true_and]
      exact hall a (List.mem_cons_self a rest)

/-- C2, confirmed. After any successful `index_file` call, indexing the
same unchanged file again with `force = False` returns 0 newly written
chunks and leaves the store exactly as it was: every chunk fingerprint is
already present, so the `SELECT` check skips every chunk. -/
theorem claim2_index_file_idempotent (fs : FS) (mem mem' : SemanticMemory)
    (path now now' : String) (force : Bool) (n : Nat)
    (h : index_file fs mem path force now = .ok (n, mem')) :
    index_file fs mem' path false now' = .ok (0, mem') := by
  unfold index_file at h ⊢
  split at h
  · rfl
  · cases h
  · rename_i content hfc
    split at h
    · cases h
    · rename_i chunks hck
      have hm : mem' = (indexChunks mem path now force 0 chunks 0).2 :=
        (congrArg Prod.snd (Except.ok.inj h)).symm
      have hall : ∀ c ∈ chunks, mem'.rows.any
          (fun row => row.content_hash == mem'.hashFn c) = true := by
        intro c hc
        rw [hm, (indexChunks_fields chunks mem path now force 0 0).1]
        exact indexChunks_hash_present chunks mem path now force 0 0 c hc
      rw [indexChunks_all_present chunks mem' path now' 0 0 hall]

/-- C2 witness: re-indexing the unchanged `a.md` performs zero writes. -/
theorem claim2_witness : index_file dedupFS dedupMem1 "a.md" false "t9" = .ok (0, dedupMem1) :=
  claim2_index_file_idempotent dedupFS dedupMem0 dedupMem1 "a.md" "t1" "t9" false 1 rfl

/-- Insert-or-replace preserves distinctness of the stored fingerprints:
the delete step removes any row carrying the incoming fingerprint before
the fresh row is appended. -/
theorem insertOrReplace_nodup (rows : List Row) (fp : String) (ci : Nat)
    (c ch : String) (emb : Option Vec) (now : String) (meta : String × Nat)
    (h : (rows.map (fun r => r.content_hash)).Nodup) :
    ((insertOrReplace rows fp ci c ch emb now meta).map (fun r => r.content_hash)).Nodup := by
  simp only [insertOrReplace, List.map_append, List.map_cons, List.map_nil]
  rw [List.nodup_append]
  refine ⟨?_, List.nodup_singleton ch, ?_⟩
  · exact h.sublist (List.Sublist.map _ (List.filter_sublist rows))
  · intro x hx
    simp only [List.mem_map] at hx
    obtain ⟨r, hr, hrx⟩ := hx
    have := (List.mem_filter.mp hr).2
    simp only [bne_iff_ne, ne_eq] at this
    simp [← hrx, this]

/-- The chunk loop preserves distinctness of the stored fingerprints. -/
theorem indexChunks_nodup (chunks : List String) :
    ∀ (mem : SemanticMemory) (path now : String) (force : Bool) (i n : Nat),
      (mem.rows.map (fun r => r.content_hash)).Nodup →
      ((indexChunks mem path now force i chunks n).2.rows.map (fun r => r.content_hash)).Nodup := by
  induction chunks with
  | nil => intro mem path now force i n h; exact h
  | cons a rest ih =>
    intro mem path now force i n h
    simp only [indexChunks]
    split
    · exact ih mem path now force (i + 1) n h
    · exact ih _ path now force (i + 1) (n + 1) (insertOrReplace_nodup _ _ _ _ _ _ _ _ h)

/-- Every reachable store keeps fingerprints pairwise distinct. -/
theorem reachable_nodup (mem : SemanticMemory) (h : Reachable mem) :
    (mem.rows.map (fun r => r.content_hash)).Nodup := by
  induction h with
  | init hashFn model => simp
  | step hr heq ih =>
    rename_i mem₀ mem₁ fs path now force n
    unfold index_file at heq
    split at heq
    · have h2 : mem₀ = mem₁ := congrArg Prod.snd (Except.ok.inj heq)
      rw [← h2]
      exact ih
    · cases heq
    · split at heq
      · cases heq
      · rename_i content hfc chunks hck
        have h2 : mem₁ = (indexChunks mem₀ path now force 0 chunks 0).2 :=
          (congrArg Prod.snd (Except.ok.inj heq)).symm
        rw [h2]
        exact indexChunks_nodup chunks mem₀ path now force 0 0 ih

/-- C1, confirmed. The `UNIQUE` constraint on `content_hash` together with
the `INSERT OR REPLACE` write path keeps fingerprints unique in every
reachable store state; in particular, indexing the two distinct files of
`dedupFS`, which share one identical paragraph, stores exactly one record
for that paragraph's fingerprint (the second call writes nothing). -/
theorem claim1_fingerprint_uniqueness :
    (∀ mem : SemanticMemory, Reachable mem → (mem.rows.map (fun r => r.content_hash)).Nodup) ∧
    index_file dedupFS dedupMem0 "a.md" false "t1" = .ok (1, dedupMem1) ∧
    index_file dedupFS dedupMem1 "b.md" false "t2" = .ok (0, dedupMem1) ∧
    (dedupMem1.rows.filter (fun r => r.content_hash == "shared paragraph")).length = 1 :=
  ⟨reachable_nodup, rfl, rfl, rfl⟩

/-- C1 witness: the store reached by indexing `a.md` from a fresh database
has pairwise-distinct fingerprints. -/
theorem claim1_witness : (dedupMem1.rows.map (fun r => r.content_hash)).Nodup :=
  claim1_fingerprint_uniqueness.1 dedupMem1
    (Reachable.step (Reachable.init (fun s => s) none)
      (rfl : index_file dedupFS dedupMem0 "a.md" false "t1" = .ok (1, dedupMem1)))

/-! ### Retrieval lemmas -/

/-- The descending score comparison is transitive. -/
theorem scoreGe_trans (a b c : String × String × ℚ) :
    scoreGe a b → scoreGe b c → scoreGe a c := by
  simp only [scoreGe, decide_eq_true_eq]
  exact fun h1 h2 => le_trans h2 h1

/-- The descending score comparison is total. -/
theorem scoreGe_total (a b : String × String × ℚ) : scoreGe a b || scoreGe b a := by
  simp only [scoreGe, Bool.or_eq_true, decide_eq_true_eq]
  exact le_total b.2.2 a.2.2

/-- Inserting an element after a block it must follow and before a block it
may precede lands it exactly between the two. -/
theorem rankInsert_append (a : String × String × ℚ) (l₁ l₂ : List (String × String × ℚ))
    (h₁ : ∀ b ∈ l₁, scoreGe a b = false) (h₂ : ∀ c ∈ l₂, scoreGe a c = true) :
    rankInsert a (l₁ ++ l₂) = l₁ ++ a :: l₂ := by
  induction l₁ with
  | nil =>
    cases l₂ with
    | nil => rfl
    | cons c l => simp [rankInsert, h₂ c (List.mem_cons_self c l)]
  | cons b l ih =>
    have hb := h₁ b (List.mem_cons_self b l)
    simp only [List.cons_append, rankInsert, hb, Bool.false_eq_true, if_false]
    exact congrArg (b :: ·) (ih (fun x hx => h₁ x (List.mem_cons_of_mem b hx)))

/-- Python's stable sort (modelled by `List.mergeSort`) agrees with the
spec-side stable descending insertion sort: both are stable and sort by
the same total transitive comparison. -/
theorem mergeSort_eq_rankSort : ∀ l : List (String × String × ℚ),
    l.mergeSort scoreGe = rankSort l
  | [] => by simp [rankSort]
  | a :: l => by
    obtain ⟨l₁, l₂, h₁, h₂, h₃⟩ := List.mergeSort_cons scoreGe_trans scoreGe_total a l
    have hs := List.sorted_mergeSort scoreGe_trans scoreGe_total (a :: l)
    rw [h₁] at hs
    have h2' : ∀ c ∈ l₂, scoreGe a c = true := by
      have hp := (List.pairwise_append.mp hs).2.1
      intro c hc
      exact List.rel_of_pairwise_cons hp hc
    have h1' : ∀ b ∈ l₁, scoreGe a b = false := by
      intro b hb
      have := h₃ b hb
      simp only [Bool.not_eq_true'] at this
      exact this
    rw [h₁, show rankSort (a :: l) = rankInsert a (rankSort l) from rfl,
      ← mergeSort_eq_rankSort l, h₂, rankInsert_append a l₁ l₂ h1' h2']

/-- The square-root model sends zero to zero. -/
theorem ratSqrt_zero : ratSqrt 0 = 0 := by
  norm_num [ratSqrt]

/-- An empty stored vector has an undefined cosine: its magnitude is zero,
so the float division is 0/0, a NaN. -/
theorem npCosine_nil (q : Vec) : npCosine q [] = none := by
  have h0 : normSq ([] : Vec) = 0 := by simp [normSq, dot]
  simp [npCosine, npDiv, h0, ratSqrt_zero]

/-- The loop of `search` over the `WHERE embedding IS NOT NULL` selection
produces exactly the qualifying triples of the spec-side description, in
insertion order: rows without a vector are dropped by both, and the
zero-length-blob skip coincides with the NaN score of an empty vector. -/
theorem searchScan_eq_qualifying (qv : Vec) (ms : ℚ) (rows : List Row) :
    searchScan qv ms (rows.filter (fun row => row.embedding.isSome)) =
      rows.filterMap (fun row =>
        match row.embedding with
        | none => none
        | some v =>
          match npCosine qv v with
          | none => none
          | some score =>
            if ms ≤ score then some (row.file_path, row.content, score) else none) := by
  induction rows with
  | nil => rfl
  | cons r rest ih =>
    cases hre : r.embedding with
    | none =>
      simp only [List.filter_cons, hre, Option.isSome_none, Bool.false_eq_true, if_false,
        List.filterMap_cons, ih]
    | some v =>
      simp only [List.filter_cons, hre, Option.isSome_some, if_true, List.filterMap_cons,
        searchScan, List.filterMap_cons, hre]
      cases hve : v.isEmpty with
      | true =>
        have hnil : v = [] := by cases v <;> simp_all
        subst hnil
        simp only [npCosine_nil, if_true]
        exact ih
      | false =>
        simp only [hve, Bool.false_eq_true, if_false]
        rw [← ih]
        rfl

/-- C3, confirmed. For every store, query, `top_k` and `min_score`, the
value returned by `search` is exactly the spec-side ranking
(`searchRanked`): the embedded chunks whose score passes the threshold,
sorted descending by score with ties broken stably by insertion order, cut
to `top_k`. In particular, on a store whose three chunks score 9/10, 1/2
and 1/5 with `min_score = 3/10` and `top_k = 2`, search returns the 9/10
and 1/2 entries in that order. -/
theorem claim3_search_ranking :
    (∀ (mem : SemanticMemory) (query : String) (limit : Nat) (min_score : ℚ),
      (search mem query limit min_score).2 = searchRanked mem query limit min_score) ∧
    (search rankedMem "q" 2 (3 / 10)).2 = [("f1.md", "c1", 9 / 10), ("f2.md", "c2", 1 / 2)] := by
  have hgen : ∀ (mem : SemanticMemory) (query : String) (limit : Nat) (min_score : ℚ),
      (search mem query limit min_score).2 = searchRanked mem query limit min_score := by
    intro mem query limit ms
    unfold search searchRanked
    cases mem.model with
    | none => rfl
    | some enc =>
      simp only
      rw [searchScan_eq_qualifying, mergeSort_eq_rankSort]
  refine ⟨hgen, ?_⟩
  rw [hgen]
  have h100 : Nat.sqrt 100 = 10 := by rw [show (100 : ℕ) = 10 * 10 from rfl, Nat.sqrt_eq]
  have ht : (100 : ℤ).toNat = 100 := rfl
  norm_num [searchRanked, rankedMem, npCosine, npDiv, dot, normSq, ratSqrt, List.zipWith, ht,
    h100, List.filterMap_cons, rankSort, rankInsert, scoreGe]

/-- C4, corrected. With no embedding model configured, `search` prints the
explicit message `Error: Embedding model not available` and returns the
empty list without consulting the store — but the returned value itself is
the plain empty list, which is what the claim wrongly says is
distinguishable from a zero-match result (`claim4_counterexample`). No
storage exception can be raised since the store is never read. -/
theorem claim4_degraded_signalling (hashFn : String → String) (rows : List Row)
    (query : String) (limit : Nat) (min_score : ℚ) :
    search ⟨hashFn, none, rows⟩ query limit min_score =
      (["Error: Embedding model not available"], []) := rfl

/-- C4 counterexample: the value returned to the caller in degraded mode
equals the value returned by a successful search that found nothing — the
caller cannot distinguish the two from the result. -/
theorem claim4_counterexample :
    (search degradedMem "q" 5 (3 / 10)).2 = (search emptyModelMem "q" 5 (3 / 10)).2 := by
  have h1 : (search degradedMem "q" 5 (3 / 10)).2 = [] := rfl
  have h2 : (search emptyModelMem "q" 5 (3 / 10)).2 = [] := by
    simp [search, searchScan, emptyModelMem]
  rw [h1, h2]

/-- C5, corrected. The walk isolates only *missing* files: a path whose
`exists()` check fails contributes zero and the remaining files are still
processed. A file whose content cannot be decoded as text raises
`UnicodeDecodeError` inside `index_file`, and since `index_directory` has
no handler, the walk aborts there — the remaining files are not processed,
contrary to the claim (`claim5_counterexample`). -/
theorem claim5_per_file_isolation (fs : FS) (mem : SemanticMemory) (f : String)
    (rest : List String) (now : String) :
    (fs f = .missing →
      index_directory fs mem (f :: rest) now = index_directory fs mem rest now) ∧
    (fs f = .undecodable →
      index_directory fs mem (f :: rest) now = .error ("UnicodeDecodeError", mem)) := by
  have hif : ∀ fc : FileContent, fs f = fc →
      index_file fs mem f false now =
        (match fc with
          | FileContent.missing => Except.ok (0, mem)
          | FileContent.undecodable => Except.error "UnicodeDecodeError"
          | FileContent.text content =>
            match chunkText content 500 50 with
            | Except.error e => Except.error e
            | Except.ok chunks => Except.ok (indexChunks mem f now false 0 chunks 0)) := by
    intro fc hfc
    unfold index_file
    rw [hfc]
  constructor
  · intro h
    show (match index_file fs mem f false now with
      | Except.error e => Except.error (e, mem)
      | Except.ok (count, mem') =>
        match index_directory fs mem' rest now with
        | Except.error em => Except.error em
        | Except.ok (total, mem'') => Except.ok (count + total, mem'')) =
      index_directory fs mem rest now
    rw [hif FileContent.missing h]
    show (match index_directory fs mem rest now with
      | Except.error em => Except.error em
      | Except.ok (total, mem'') => Except.ok (0 + total, mem'')) =
      index_directory fs mem rest now
    cases hrec : index_directory fs mem rest now with
    | error em => rfl
    | ok p =>
      cases p with
      | mk total mem'' => simp
  · intro h
    show (match index_file fs mem f false now with
      | Except.error e => Except.error (e, mem)
      | Except.ok (count, mem') =>
        match index_directory fs mem' rest now with
        | Except.error em => Except.error em
        | Except.ok (total, mem'') => Except.ok (count + total, mem'')) =
      Except.error ("UnicodeDecodeError", mem)
    rw [hif FileContent.undecodable h]

/-- C5 counterexample: with `bad.md` undecodable and `good.md` readable,
the directory walk over `[bad.md, good.md]` aborts with the decode error
and `good.md` is never indexed, although indexing `good.md` alone writes
one chunk. -/
theorem claim5_counterexample :
    index_directory walkFS dedupMem0 ["bad.md", "good.md"] "t" =
      .error ("UnicodeDecodeError", dedupMem0) ∧
    (index_directory walkFS dedupMem0 ["good.md"] "t").map (fun p => p.1) = .ok 1 := ⟨rfl, rfl⟩

/-- C5 witness: a missing file is skipped without aborting, and an
undecodable file aborts, each at a concrete input. -/
theorem claim5_witness :
    index_directory walkFS dedupMem0 ["nope.md", "good.md"] "t" =
      index_directory walkFS dedupMem0 ["good.md"] "t" ∧
    index_directory walkFS dedupMem0 ["bad.md", "good.md"] "t" =
      .error ("UnicodeDecodeError", dedupMem0) :=
  ⟨(claim5_per_file_isolation walkFS dedupMem0 "nope.md" ["good.md"] "t").1 rfl,
   (claim5_per_file_isolation walkFS dedupMem0 "bad.md" ["good.md"] "t").2 rfl⟩

/-- Dropping elements that the filter predicate rejects does not change a
`filterMap` when the mapped function sends every rejected element to
`none`. -/
theorem filterMap_filter_of_none {α β : Type} (f : α → Option β) (p : α → Bool)
    (l : List α) (h : ∀ a ∈ l, p a = false → f a = none) :
    (l.filter p).filterMap f = l.filterMap f := by
  induction l with
  | nil => rfl
  | cons a l ih =>
    have ih' := ih (fun x hx hpx => h x (List.mem_cons_of_mem a hx) hpx)
    cases hp : p a with
    | true =>
      rw [List.filter_cons_of_pos hp, List.filterMap_cons, List.filterMap_cons]
      cases hfa : f a with
      | none => exact ih'
      | some b => rw [ih']
    | false =>
      rw [List.filter_cons_of_neg (by simp [hp]), List.filterMap_cons,
        h a (List.mem_cons_self a l) hp]
      exact ih'

/-- C8, corrected. A zero-magnitude stored vector (or query vector) does
not receive score 0: the cosine expression divides by zero and yields NaN,
which fails the `score >= min_score` comparison for *every* `min_score` —
also non-positive ones where a score of 0 would qualify. Consequently rows
with a zero-magnitude vector never contribute to the scan results. -/
theorem claim8_zero_vector :
    (∀ (q v : Vec) (min_score : ℚ), normSq q = 0 ∨ normSq v = 0 →
      npCosine q v = none ∧ npGe (npCosine q v) min_score = false) ∧
    (∀ (qv : Vec) (ms : ℚ) (rows : List Row),
      searchScan qv ms (rows.filter (fun row => !isZeroEmbedding row)) =
        searchScan qv ms rows) := by
  have hcos : ∀ (q v : Vec), normSq q = 0 ∨ normSq v = 0 → npCosine q v = none := by
    intro q v h
    have hd : ratSqrt (normSq q) * ratSqrt (normSq v) = 0 := by
      rcases h with h | h
      · rw [h, ratSqrt_zero, zero_mul]
      · rw [h, ratSqrt_zero, mul_zero]
    simp [npCosine, npDiv, hd]
  constructor
  · intro q v ms h
    refine ⟨hcos q v h, ?_⟩
    rw [hcos q v h]
    rfl
  · intro qv ms rows
    apply filterMap_filter_of_none
    intro row _ hp
    have hz : isZeroEmbedding row = true := by
      cases h : isZeroEmbedding row with
      | true => rfl
      | false => rw [h] at hp; cases hp
    obtain ⟨rid, rfp, rci, rc, rch, remb, rca, rmd⟩ := row
    cases remb with
    | none => rfl
    | some v =>
      have hv : normSq v = 0 := by
        simpa [isZeroEmbedding] using hz
      show (if v.isEmpty = true then none
        else match npCosine qv v with
          | none => none
          | some score => if ms ≤ score then some (rfp, rc, score) else none) = none
      cases hve : v.isEmpty with
      | true => rfl
      | false =>
        rw [hcos qv v (Or.inr hv)]
        rfl

/-- C8 witness: the zero stored vector against the query embedding
`[1, 0]` has an undefined score, which fails even the threshold `-1`. -/
theorem claim8_witness :
    npCosine [1, 0] [0, 0] = none ∧ npGe (npCosine [1, 0] [0, 0]) (-1) = false :=
  claim8_zero_vector.1 [1, 0] [0, 0] (-1)
    (Or.inr (by simp [normSq, dot, List.zipWith]))

/-- C8 counterexample: the score computed for the zero vector is NaN
(`none`), not 0 as the claim states, and with `min_score = 0` — where a
score of 0 would qualify (`0 ≤ 0`) — the zero-vector chunk is still absent
from the search result. -/
theorem claim8_counterexample :
    npCosine [1, 0] [0, 0] ≠ some 0 ∧ (0 : ℚ) ≤ 0 ∧
    (search zeroVecMem "q" 5 0).2 = [] := by
  have hz : npCosine [1, 0] [0, 0] = none := by
    norm_num [npCosine, npDiv, dot, normSq, ratSqrt, List.zipWith]
  refine ⟨by rw [hz]; exact fun h => Option.noConfusion h, le_refl 0, ?_⟩
  simp [search, zeroVecMem, searchScan, hz]

/-! ### Forced re-index and whitespace fallback -/

/-- C9, corrected. When the fingerprint of the (single) chunk of a file is
re-indexed with `force = True`, the store ends up with exactly one row for
that fingerprint, carrying the new text, vector, metadata and timestamp,
and all rows with other fingerprints are untouched. However the row is
*deleted and re-inserted* by `INSERT OR REPLACE`, so its `id` is assigned
afresh (one above the largest surviving rowid) instead of being immutable —
`claim9_counterexample` shows an `id` changing from 1 to 3. -/
theorem claim9_force_reindex (fs : FS) (mem : SemanticMemory) (path content now : String)
    (rows' : List Row)
    (hfs : fs path = .text content) (hch : chunkText content 500 50 = .ok [content])
    (hrows : rows' = insertOrReplace mem.rows path 0 content (hashContent mem content)
      (mem.model.map (fun enc => enc content)) now (path, 0)) :
    index_file fs mem path true now = .ok (1, ⟨mem.hashFn, mem.model, rows'⟩) ∧
    (rows'.filter (fun r => r.content_hash == hashContent mem content)).length = 1 ∧
    rows'.filter (fun r => r.content_hash != hashContent mem content) =
      mem.rows.filter (fun r => r.content_hash != hashContent mem content) ∧
    (rows'.filter (fun r => r.content_hash == hashContent mem content)).map
      (fun r => (r.content, r.embedding, r.created_at, r.metadata)) =
      [(content, mem.model.map (fun enc => enc content), now, (path, 0))] := by
  have hkempty : ∀ l : List Row,
      (l.filter (fun r => r.content_hash != hashContent mem content)).filter
        (fun r => r.content_hash == hashContent mem content) = [] := by
    intro l
    rw [List.filter_eq_nil_iff]
    intro r hr
    have := (List.mem_filter.mp hr).2
    simp only [bne_iff_ne, ne_eq] at this
    simp [this]
  have hfilter : rows'.filter (fun r => r.content_hash == hashContent mem content) =
      [⟨((mem.rows.filter (fun r => r.content_hash != hashContent mem content)).map
          (fun r => r.id)).foldr max 0 + 1, path, 0, content, hashContent mem content,
        mem.model.map (fun enc => enc content), now, (path, 0)⟩] := by
    rw [hrows]
    show (List.filter _ (_ ++ [_])) = _
    rw [List.filter_append, hkempty]
    simp
  refine ⟨?_, ?_, ?_, ?_⟩
  · unfold index_file
    rw [hfs]
    show (match chunkText content 500 50 with
      | Except.error e => Except.error e
      | Except.ok chunks => Except.ok (indexChunks mem path now true 0 chunks 0)) =
      Except.ok (1, ⟨mem.hashFn, mem.model, rows'⟩)
    rw [hch, hrows]
    rfl
  · rw [hfilter]
    rfl
  · rw [hrows]
    show (List.filter _ (_ ++ [_])) = _
    rw [List.filter_append]
    have h2 : (List.filter (fun r => r.content_hash != hashContent mem content)
        [(⟨((mem.rows.filter (fun r => r.content_hash != hashContent mem content)).map
            (fun r => r.id)).foldr max 0 + 1, path, 0, content, hashContent mem content,
          mem.model.map (fun enc => enc content), now, (path, 0)⟩ : Row)]) = [] := by
      simp
    rw [h2, List.append_nil]
    rw [List.filter_eq_self.mpr]
    intro r hr
    exact (List.mem_filter.mp hr).2
  · rw [hfilter]
    rfl

/-- C9 counterexample: the store holds `alpha` at rowid 1 and `beta` at
rowid 2; a forced re-index of the file containing `alpha` leaves one row
for `alpha`'s fingerprint, but its `id` is now 3, not the original 1 —
the surrogate key is not immutable under forced re-indexing. -/
theorem claim9_counterexample :
    forceMem.rows.map (fun r => (r.id, r.content_hash)) = [(1, "alpha"), (2, "beta")] ∧
    (index_file forceFS forceMem "f1.md" true "t3").map
      (fun p => p.2.rows.map (fun r => (r.id, r.content_hash))) = .ok [(2, "beta"), (3, "alpha")] :=
  ⟨rfl, rfl⟩

/-- C9 witness: the frame conditions of a forced re-index, evaluated on
the two-row store. -/
theorem claim9_witness :
    index_file forceFS forceMem "f1.md" true "t3" =
      .ok (1, ⟨forceMem.hashFn, forceMem.model,
        insertOrReplace forceMem.rows "f1.md" 0 "alpha" (hashContent forceMem "alpha")
          (forceMem.model.map (fun enc => enc "alpha")) "t3" ("f1.md", 0)⟩) ∧
    ((insertOrReplace forceMem.rows "f1.md" 0 "alpha" (hashContent forceMem "alpha")
        (forceMem.model.map (fun enc => enc "alpha")) "t3" ("f1.md", 0)).filter
      (fun r => r.content_hash == hashContent forceMem "alpha")).length = 1 ∧
    (insertOrReplace forceMem.rows "f1.md" 0 "alpha" (hashContent forceMem "alpha")
        (forceMem.model.map (fun enc => enc "alpha")) "t3" ("f1.md", 0)).filter
      (fun r => r.content_hash != hashContent forceMem "alpha") =
      forceMem.rows.filter (fun r => r.content_hash != hashContent forceMem "alpha") ∧
    ((insertOrReplace forceMem.rows "f1.md" 0 "alpha" (hashContent forceMem "alpha")
        (forceMem.model.map (fun enc => enc "alpha")) "t3" ("f1.md", 0)).filter
      (fun r => r.content_hash == hashContent forceMem "alpha")).map
      (fun r => (r.content, r.embedding, r.created_at, r.metadata)) =
      [("alpha", forceMem.model.map (fun enc => enc "alpha"), "t3", ("f1.md", 0))] :=
  claim9_force_reindex forceFS forceMem "f1.md" "alpha" "t3"
    (insertOrReplace forceMem.rows "f1.md" 0 "alpha" (hashContent forceMem "alpha")
      (forceMem.model.map (fun enc => enc "alpha")) "t3" ("f1.md", 0)) rfl rfl rfl

/-- Splitting a whitespace-only (or empty) character list yields no words. -/
theorem pySplitAux_all_ws (cs : List Char) (h : ∀ c ∈ cs, c.isWhitespace = true) :
    pySplitAux cs [] = [] := by
  induction cs with
  | nil => rfl
  | cons c rest ih =>
    simp only [pySplitAux, h c (List.mem_cons_self c rest), if_true, List.isEmpty_nil]
    exact ih (fun x hx => h x (List.mem_cons_of_mem c hx))

/-- Python `split()` of a whitespace-only string is the empty word list. -/
theorem pySplit_all_ws (s : String) (h : ∀ c ∈ s.data, c.isWhitespace = true) :
    pySplit s = [] :=
  pySplitAux_all_ws s.data h

/-- C10, confirmed. A non-empty whitespace-only text splits into zero
words, so no candidate window exists, and the chunker returns the single
fallback window holding the original text verbatim; `index_file` on such a
file (with the fingerprint not yet stored) appends exactly one row whose
`content` is the raw whitespace text. -/
theorem claim10_whitespace_fallback (text : String) (fs : FS) (mem : SemanticMemory)
    (path now : String) (h1 : text ≠ "") (h2 : ∀ c ∈ text.data, c.isWhitespace = true)
    (h3 : fs path = .text text)
    (h4 : mem.rows.any (fun row => row.content_hash == hashContent mem text) = false) :
    chunkText text 500 50 = .ok [text] ∧
    index_file fs mem path false now =
      .ok (1, ⟨mem.hashFn, mem.model,
        mem.rows ++ [⟨((mem.rows.map (fun r => r.id)).foldr max 0) + 1, path, 0, text,
          hashContent mem text, mem.model.map (fun enc => enc text), now, (path, 0)⟩]⟩) := by
  have hsplit : pySplit text = [] := pySplit_all_ws text h2
  have hchunk : chunkText text 500 50 = .ok [text] := by
    unfold chunkText
    rw [hsplit]
    rfl
  refine ⟨hchunk, ?_⟩
  have hkept : mem.rows.filter (fun row => row.content_hash != hashContent mem text) =
      mem.rows := by
    rw [List.filter_eq_self]
    intro r hr
    have hne := List.any_eq_false.mp h4 r hr
    simp only [beq_iff_eq] at hne
    simp [bne_iff_ne, hne]
  unfold index_file
  rw [h3]
  show (match chunkText text 500 50 with
    | Except.error e => Except.error e
    | Except.ok chunks => Except.ok (indexChunks mem path now false 0 chunks 0)) =
    Except.ok (1, ⟨mem.hashFn, mem.model,
      mem.rows ++ [⟨((mem.rows.map (fun r => r.id)).foldr max 0) + 1, path, 0, text,
        hashContent mem text, mem.model.map (fun enc => enc text), now, (path, 0)⟩]⟩)
  rw [hchunk]
  show Except.ok (indexChunks mem path now false 0 [text] 0) = _
  simp only [indexChunks, Bool.not_false, Bool.true_and]
  rw [h4]
  simp only [Bool.false_eq_true, if_false, insertOrReplace, hkept]

/-- C10 witness: indexing a file holding three spaces writes exactly one
chunk whose stored text is the raw three-space string. -/
theorem claim10_witness :
    chunkText "   " 500 50 = .ok ["   "] ∧
    index_file wsFS dedupMem0 "ws.md" false "t1" =
      .ok (1, ⟨dedupMem0.hashFn, dedupMem0.model,
        dedupMem0.rows ++ [⟨((dedupMem0.rows.map (fun r => r.id)).foldr max 0) + 1, "ws.md", 0,
          "   ", hashContent dedupMem0 "   ", dedupMem0.model.map (fun enc => enc "   "), "t1",
          ("ws.md", 0)⟩]⟩) :=
  claim10_whitespace_fallback "   " wsFS dedupMem0 "ws.md" "t1" (by decide) (by decide) rfl rfl

end Chronicle
